import Mathlib

/-!
# Verification of the ch0p1n pitch-motif core (`src/ch0p1n/z.py`)

Shallow embedding of the pitch-motif operations of `z.py`:
scale reification, stepwise motion, motif flattening/scattering,
pitch-class remapping, transposition, harmonic leading, and the
completeness check.

Conventions of the embedding:
* A pitch is an `Int`; a rest (Python `None`) is `Option.none`.
* Python `%` and `//` on a positive divisor (always 12 here) are floor
  mod and floor division, which coincide with Lean's `%` (`Int.emod`)
  and `/` (`Int.ediv`) on `Int` for a positive divisor.
* Python functions that can raise (`IndexError`) return `Option.none`
  at the outer level; Python functions that mutate an argument list
  (`list.append`/`list.sort` in `_move`) return the final state of that
  list alongside their result, and callers thread that state exactly as
  the shared Python object would flow.
* A Python `dict` used as a finite mapping is an association list
  queried with `List.lookup`.
-/

/-- One slot of a pitch motif (Python `PitchLine` element): either a single
pitch-or-rest, or a cluster of simultaneous pitches-or-rests.  The Python
source distinguishes the two cases with `isinstance(item, list)`. -/
inductive Slot where
  | single : Option Int → Slot
  | cluster : List (Option Int) → Slot
  deriving DecidableEq

/-- Ascending insertion of one integer into a list (helper for `pySort`). -/
def insertAsc (p : Int) : List Int → List Int
  | [] => [p]
  | q :: rest => if p ≤ q then p :: q :: rest else q :: insertAsc p rest

/-- Model of Python's `list.sort()` on a list of integers: the ascending
reordering of the list (insertion sort; for integers any stable sort
produces this same list). -/
def pySort : List Int → List Int
  | [] => []
  | x :: xs => insertAsc x (pySort xs)

/-- `_reify` from the source: sort the scale's pitch classes, then list
`pitch_class + octave*12` with the octave `0..10` outermost. -/
def _reify (scale : List Int) : List Int :=
  ((List.range 11).map
    (fun octave => (pySort scale).map (fun pc => pc + (octave : Int) * 12))).flatten

/-- Python list indexing `xs[i]`: a negative index counts from the end of
the list; an index out of range (`i ≥ len` or `i < -len`) raises
`IndexError`, modelled as `Option.none`. -/
def pyIndex (xs : List Int) (i : Int) : Option Int :=
  if 0 ≤ i then xs.get? i.toNat
  else if 0 ≤ (xs.length : Int) + i then xs.get? ((xs.length : Int) + i).toNat
  else Option.none

/-- `_move` from the source.  A rest moves to a rest; an out-of-scale pitch
with step `0` yields a rest; an out-of-scale pitch with a nonzero step is
first inserted into the scale list (`scale.append(pitch); scale.sort()`,
an in-place mutation of the caller's list, modelled by returning the new
list); then the element at `scale.index(pitch) + step` is returned.  The
outer `Option` is the `IndexError` of `scale[i + step]`. -/
def _move (pitch : Option Int) (scale : List Int) (step : Int) :
    Option (Option Int × List Int) :=
  match pitch with
  | Option.none => some (Option.none, scale)
  | some p =>
    if p ∈ scale then
      match pyIndex scale ((scale.indexOf p : Int) + step) with
      | some q => some (some q, scale)
      | Option.none => Option.none
    else if step = 0 then
      some (Option.none, scale)
    else
      let scale' := pySort (scale ++ [p])
      match pyIndex scale' ((scale'.indexOf p : Int) + step) with
      | some q => some (some q, scale')
      | Option.none => Option.none

/-- The list comprehension `[_move(pitch, scale, step) for step in steps]`
inside `_move2`: successive `_move` calls against the same (mutable) scale
list, threading the state; any `IndexError` aborts the whole call. -/
def moveList (p : Int) (scale : List Int) (steps : List Int) :
    Option (List (Option Int) × List Int) :=
  match steps with
  | [] => some ([], scale)
  | st :: rest =>
    match _move (some p) scale st with
    | Option.none => Option.none
    | some (q, scale₁) =>
      match moveList p scale₁ rest with
      | Option.none => Option.none
      | some (qs, scale₂) => some (q :: qs, scale₂)

/-- `_move2` from the source: a rest yields `[rest]`; for an out-of-scale
pitch the step `0` is first removed from the step list; an empty remaining
step list yields an empty candidate list. -/
def _move2 (pitch : Option Int) (scale : List Int) (steps : List Int) :
    Option (List (Option Int) × List Int) :=
  match pitch with
  | Option.none => some ([Option.none], scale)
  | some p =>
    let steps' := if p ∉ scale ∧ 0 ∈ steps
      then steps.filter (fun s => s != 0) else steps
    if steps' = [] then some ([], scale)
    else moveList p scale steps'

/-- `_extract` from the source: flatten a motif, clusters contributing
their elements in order. -/
def _extract (pitch_motif : List Slot) : List (Option Int) :=
  match pitch_motif with
  | [] => []
  | Slot.single p :: rest => p :: _extract rest
  | Slot.cluster c :: rest => c ++ _extract rest

/-- `_replace` from the source (copy mode): a single slot receives
`pitches[k]` (an `IndexError`, modelled as `Option.none`, when the flat
list is exhausted); a cluster slot of length `l` receives the slice
`pitches[k:k+l]` (Python slices silently truncate). -/
def _replace (pitch_motif : List Slot) (pitches : List (Option Int)) :
    Option (List Slot) :=
  match pitch_motif with
  | [] => some []
  | Slot.single _ :: rest =>
    match pitches with
    | [] => Option.none
    | q :: qs => (_replace rest qs).map (fun m => Slot.single q :: m)
  | Slot.cluster c :: rest =>
    (_replace rest (pitches.drop c.length)).map
      (fun m => Slot.cluster (pitches.take c.length) :: m)

/-- `_is_complete` from the source.  Note the Python filter `if pitch` is
a truthiness test: it drops rests (`None`) and also the pitch `0`.  The
superset test `set(pitch_classes) >= set(harmony)` holds iff every element
of `harmony` occurs among the computed pitch classes. -/
def _is_complete (pitches : List (Option Int)) (harmony : List Int) : Bool :=
  let pitch_classes :=
    (((pitches.filterMap id).filter (fun p => p != 0)).map (fun p => p % 12))
  harmony.all (fun h => h ∈ pitch_classes)

/-- The completeness predicate as the spec words it (§4.4): rests are
discarded, register is ignored, and the pitch classes present must be a
superset of the harmony's pitch classes.  Stated for comparison with the
source's `_is_complete`. -/
def isCompleteSpec (pitches : List (Option Int)) (harmony : List Int) : Bool :=
  harmony.all (fun h => h ∈ (pitches.filterMap id).map (fun p => p % 12))

/-- The octave correction inside `rescale`: `d = to - pitch_class`; if
`d >= 6` the destination drops an octave, if `d <= -6` it rises one. -/
def pcCorrect (to0 pc : Int) : Int :=
  if 6 ≤ to0 - pc then to0 - 12 else if to0 - pc ≤ -6 then to0 + 12 else to0

/-- The body of `rescale`'s per-pitch loop: a rest or an unmapped pitch
class passes through; a mapped pitch class is corrected to the nearest
octave and put back in the original octave. -/
def rescalePitch (mapping : List (Int × Int)) (pitch : Option Int) : Option Int :=
  match pitch with
  | Option.none => Option.none
  | some p =>
    match mapping.lookup (p % 12) with
    | Option.none => some p
    | some to0 => some (pcCorrect to0 (p % 12) + p / 12 * 12)

/-- `rescale` from the source: extract, remap each pitch in place
(the `for i, pitch in enumerate(pitches)` loop is a map), replace. -/
def rescale (pitch_motif : List Slot) (mapping : List (Int × Int)) :
    Option (List Slot) :=
  _replace pitch_motif ((_extract pitch_motif).map (rescalePitch mapping))

/-- The comprehension `[_move(pitch, scale, step) for pitch in pitches]`
inside `transpose`: one shared reified scale list threads through the
successive `_move` calls. -/
def moveAll (scale : List Int) (step : Int) (pitches : List (Option Int)) :
    Option (List (Option Int) × List Int) :=
  match pitches with
  | [] => some ([], scale)
  | p :: rest =>
    match _move p scale step with
    | Option.none => Option.none
    | some (q, scale₁) =>
      match moveAll scale₁ step rest with
      | Option.none => Option.none
      | some (qs, scale₂) => some (q :: qs, scale₂)

/-- `transpose` from the source: reify the scale, move every extracted
pitch by the one step, replace. -/
def transpose (pitch_motif : List Slot) (scale : List Int) (step : Int) :
    Option (List Slot) :=
  match moveAll (_reify scale) step (_extract pitch_motif) with
  | Option.none => Option.none
  | some (ps, _) => _replace pitch_motif ps

/-- The comprehension `[_move2(pitch, harmony, steps) for pitch in pitches]`
inside `lead`: the harmony list (passed *without* reification, exactly as
in the source) is a shared mutable list, so its state threads through the
per-pitch `_move2` calls. -/
def move2All (harmony : List Int) (steps : List Int)
    (pitches : List (Option Int)) :
    Option (List (List (Option Int)) × List Int) :=
  match pitches with
  | [] => some ([], harmony)
  | p :: rest =>
    match _move2 p harmony steps with
    | Option.none => Option.none
    | some (cands, h₁) =>
      match move2All h₁ steps rest with
      | Option.none => Option.none
      | some (cs, h₂) => some (cands :: cs, h₂)

/-- `itertools.product(*nearest_pitches)` as a list: the cross product of
the candidate lists, rightmost position varying fastest. -/
def listProd : List (List (Option Int)) → List (List (Option Int))
  | [] => [[]]
  | xs :: rest => (xs.map (fun x => (listProd rest).map (fun ys => x :: ys))).flatten

/-- Modelled from the spec: the completeness filter of `lead` (§4.7 step 4,
keep exactly the whole-motif candidates that satisfy `_is_complete`).
What is missing from the source is a syntactically valid filter: the
comprehension at z.py lines 232-236,
`pitch_group if _is_complete(pitch_group, harmony) for pitch_group in
pitch_groups`, is a conditional expression without `else` and is not
valid Python; the spec's §9 records that the evident intent is
keep-if-complete, which this definition follows. -/
def leadFilter (harmony : List Int) (groups : List (List (Option Int))) :
    List (List (Option Int)) :=
  groups.filter (fun g => _is_complete g harmony)

/-- The comprehension `[_replace(pitch_motif, list(pitch_group)) for
pitch_group in pitch_groups]` inside `lead`. -/
def replaceAll (pitch_motif : List Slot) (groups : List (List (Option Int))) :
    Option (List (List Slot)) :=
  match groups with
  | [] => some []
  | g :: rest =>
    match _replace pitch_motif g with
    | Option.none => Option.none
    | some m =>
      match replaceAll pitch_motif rest with
      | Option.none => Option.none
      | some ms => some (m :: ms)

/-- `lead` from the source.  As in the source, the harmony list is handed
to `_move2` without reification, and in-place insertions into it by
`_move` persist across the per-pitch calls; the completeness branch uses
`leadFilter` (see its doc comment) against the harmony list's final state,
which is what the name `harmony` denotes at that point of the source. -/
def lead (pitch_motif : List Slot) (harmony : List Int) (steps : List Int)
    (complete : Bool) : Option (List (List Slot)) :=
  match move2All harmony steps (_extract pitch_motif) with
  | Option.none => Option.none
  | some (nearest, harmony') =>
    let groups := listProd nearest
    let groups := if complete then leadFilter harmony' groups else groups
    replaceAll pitch_motif groups

/-- The shape of one slot: `none` for a single slot, `some l` for a
cluster of length `l`. -/
def slotShape : Slot → Option Nat
  | Slot.single _ => Option.none
  | Slot.cluster c => some c.length

/-- The slot-type and cluster-length sequence of a motif (the structural
invariant of §3 of the spec). -/
def shape (pitch_motif : List Slot) : List (Option Nat) :=
  pitch_motif.map slotShape

/-- Circular (mod-12) distance between two pitch classes. -/
def circDist (a b : Int) : Int := min ((a - b) % 12) ((b - a) % 12)

/-! ## Helper lemmas -/

theorem pyIndex_out_of_range (xs : List Int) (i : Int)
    (h : (xs.length : Int) ≤ i ∨ i < -(xs.length : Int)) :
    pyIndex xs i = Option.none := by
  unfold pyIndex
  split_ifs with h1 h2
  · rw [List.get?_eq_none]
    omega
  · exfalso
    omega
  · rfl

theorem move_rest_none (p : Int) (scale : List Int) (step : Int)
    (sc : List Int) (h : _move (some p) scale step = some (Option.none, sc)) :
    p ∉ scale ∧ step = 0 := by
  simp only [_move] at h
  split at h
  · split at h
    · simp at h
    · simp at h
  · split at h
    · rename_i hmem hstep
      exact ⟨hmem, hstep⟩
    · split at h
      · simp at h
      · simp at h

theorem move_mem_same (p : Int) (scale : List Int) (step : Int)
    (q : Option Int) (sc : List Int)
    (h : _move (some p) scale step = some (q, sc)) (hmem : p ∈ scale) :
    sc = scale := by
  simp only [_move, if_pos hmem] at h
  split at h
  · simp at h
    exact h.2.symm
  · simp at h

theorem replace_shape (M : List Slot) : ∀ ps : List (Option Int),
    (_extract M).length ≤ ps.length →
    ∃ M', _replace M ps = some M' ∧ shape M' = shape M := by
  induction M with
  | nil =>
    intro ps _
    exact ⟨[], rfl, rfl⟩
  | cons s rest ih =>
    cases s with
    | single a =>
      intro ps h
      cases ps with
      | nil =>
        exfalso
        simp [_extract] at h
      | cons q qs =>
        obtain ⟨M', hM', hsh⟩ := ih qs (by simp [_extract] at h ⊢; omega)
        exact ⟨Slot.single q :: M', by simp [_replace, hM'],
          by simp [shape, slotShape, hsh]; simpa [shape] using hsh⟩
    | cluster c =>
      intro ps h
      have hlen : c.length ≤ ps.length := by
        simp [_extract] at h
        omega
      obtain ⟨M', hM', hsh⟩ := ih (ps.drop c.length)
        (by simp [_extract, List.length_drop] at h ⊢; omega)
      refine ⟨Slot.cluster (ps.take c.length) :: M', by simp [_replace, hM'], ?_⟩
      simp only [shape, List.map, slotShape, List.length_take]
      rw [inf_eq_left.mpr hlen]
      simpa [shape] using hsh

theorem replace_shape_of_eq (M M' : List Slot) (ps : List (Option Int))
    (h : _replace M ps = some M')
    (hlen : (_extract M).length ≤ ps.length) : shape M' = shape M := by
  obtain ⟨M'', hM'', hsh⟩ := replace_shape M ps hlen
  rw [hM''] at h
  cases h
  exact hsh

theorem moveAll_length (ps : List (Option Int)) : ∀ (sc : List Int) (st : Int)
    (qs : List (Option Int)) (sc' : List Int),
    moveAll sc st ps = some (qs, sc') → qs.length = ps.length := by
  induction ps with
  | nil =>
    intro sc st qs sc' h
    simp [moveAll] at h
    simp [h.1.symm]
  | cons p rest ih =>
    intro sc st qs sc' h
    simp only [moveAll] at h
    split at h
    · simp at h
    · rename_i q1 hmv
      split at h
      · simp at h
      · rename_i q2 hrest
        simp at h
        obtain ⟨hqs, -⟩ := h
        subst hqs
        simp [ih _ _ _ _ hrest]

theorem move2All_length (ps : List (Option Int)) : ∀ (h₀ : List Int)
    (steps : List Int) (cs : List (List (Option Int))) (h' : List Int),
    move2All h₀ steps ps = some (cs, h') → cs.length = ps.length := by
  induction ps with
  | nil =>
    intro h₀ steps cs h' h
    simp [move2All] at h
    simp [h.1.symm]
  | cons p rest ih =>
    intro h₀ steps cs h' h
    simp only [move2All] at h
    split at h
    · simp at h
    · rename_i q1 hmv
      split at h
      · simp at h
      · rename_i q2 hrest
        simp at h
        obtain ⟨hcs, -⟩ := h
        subst hcs
        simp [ih _ _ _ _ hrest]

theorem listProd_mem_length (ls : List (List (Option Int))) :
    ∀ g ∈ listProd ls, g.length = ls.length := by
  induction ls with
  | nil =>
    intro g hg
    simp [listProd] at hg
    simp [hg]
  | cons xs rest ih =>
    intro g hg
    simp only [listProd, List.mem_flatten, List.mem_map] at hg
    obtain ⟨l, ⟨x, hx, rfl⟩, hgl⟩ := hg
    simp only [List.mem_map] at hgl
    obtain ⟨ys, hys, rfl⟩ := hgl
    simp [ih ys hys]

theorem replaceAll_mem (M : List Slot) (groups : List (List (Option Int))) :
    ∀ (res : List (List Slot)) (M' : List Slot),
    replaceAll M groups = some res → M' ∈ res →
    ∃ g ∈ groups, _replace M g = some M' := by
  induction groups with
  | nil =>
    intro res M' h hmem
    simp [replaceAll] at h
    subst h
    simp at hmem
  | cons g rest ih =>
    intro res M' h hmem
    simp only [replaceAll] at h
    split at h
    · simp at h
    · rename_i m hm
      split at h
      · simp at h
      · rename_i ms hms
        simp at h
        subst h
        rcases List.mem_cons.mp hmem with rfl | hmem'
        · exact ⟨g, by simp, hm⟩
        · obtain ⟨g', hg', hrep⟩ := ih ms M' hms hmem'
          exact ⟨g', by simp [hg'], hrep⟩

theorem move_some_of_ne_zero (p : Int) (scale : List Int) (step : Int)
    (q : Option Int) (sc : List Int)
    (h : _move (some p) scale step = some (q, sc)) (hstep : step ≠ 0) :
    q ≠ Option.none := by
  intro hq
  subst hq
  exact hstep (move_rest_none p scale step sc h).2

theorem move_some_of_mem (p : Int) (scale : List Int) (step : Int)
    (q : Option Int) (sc : List Int)
    (h : _move (some p) scale step = some (q, sc)) (hmem : p ∈ scale) :
    q ≠ Option.none := by
  intro hq
  subst hq
  exact (move_rest_none p scale step sc h).1 hmem

theorem moveList_no_rest (steps : List Int) : ∀ (p : Int) (scale : List Int)
    (res : List (Option Int)) (sc : List Int),
    ((0 : Int) ∉ steps ∨ p ∈ scale) →
    moveList p scale steps = some (res, sc) → Option.none ∉ res := by
  induction steps with
  | nil =>
    intro p scale res sc _ h
    simp only [moveList] at h
    cases h
    simp
  | cons st rest ih =>
    intro p scale res sc hside h
    simp only [moveList] at h
    split at h
    · simp at h
    · rename_i q scale₁ hmv
      split at h
      · simp at h
      · rename_i qs scale₂ hrest
        simp at h
        obtain ⟨hres, -⟩ := h
        subst hres
        intro hmem
        rcases List.mem_cons.mp hmem with hq | hq
        · rcases hside with hside | hside
          · exact move_some_of_ne_zero p scale st q scale₁ hmv
              (fun h0 => hside (h0 ▸ List.mem_cons_self st rest)) hq.symm
          · exact move_some_of_mem p scale st q scale₁ hmv hside hq.symm
        · refine ih p scale₁ qs scale₂ ?_ hrest hq
          rcases hside with hside | hside
          · exact Or.inl (fun h0 => hside (List.mem_cons_of_mem st h0))
          · refine Or.inr ?_
            rw [move_mem_same p scale st q scale₁ hmv hside]
            exact hside

theorem filter_ne_zero_of_not_mem (steps : List Int) (h : (0 : Int) ∉ steps) :
    steps.filter (fun s => s != 0) = steps := by
  apply List.filter_eq_self.mpr
  intro a ha
  simp only [bne_iff_ne, ne_eq, decide_eq_true_eq]
  rintro rfl
  exact h ha

theorem zero_not_mem_filter_ne_zero (steps : List Int) :
    (0 : Int) ∉ steps.filter (fun s => s != 0) := by
  intro h
  rcases List.mem_filter.mp h with ⟨-, hbe⟩
  simp at hbe

theorem circDist_le_six (a b : Int) : circDist a b ≤ 6 := by
  unfold circDist
  rcases le_total ((a - b) % 12) ((b - a) % 12) with h | h
  · rw [min_eq_left h]; omega
  · rw [min_eq_right h]; omega

/-! ## Claim theorems -/

/-- Claim C1: the claim expects `lead([60], {0,4,7}, {-1,0,1}, complete=false)`
to return the motifs reconstituted from the candidates of 60 along the
*reified* harmony (which are 55, 60, 64).  The source instead hands the
un-reified pitch-class list `[0,4,7]` to `_move2`, so the call mutates that
list and raises `IndexError` (modelled `Option.none`); the second conjunct
shows that moving 60 along the reified harmony — what the claim describes —
does produce 55, 60, 64 without disturbing the scale. -/
theorem lead_unreified_harmony :
    lead [Slot.single (some 60)] [0, 4, 7] [-1, 0, 1] false = Option.none
    ∧ _move2 (some 60) (_reify [0, 4, 7]) [-1, 0, 1]
        = some ([some 55, some 60, some 64], _reify [0, 4, 7]) := by
  constructor
  · rfl
  · rfl

/-- Claim C2: with `complete=true` the source's filter step is the
comprehension `pitch_group if _is_complete(pitch_group, harmony) for
pitch_group in pitch_groups`, which is not valid Python (conditional
expression without `else`); moreover the un-reified harmony makes the
spec's two-voice example `[60, 64]` raise `IndexError` before any
filtering (first conjunct).  The second conjunct records that the
spec-intended filter (`leadFilter`) does discard incomplete candidates
and keep complete ones. -/
theorem lead_completeness_filter_defect :
    lead [Slot.single (some 60), Slot.single (some 64)] [0, 4, 7] [-1, 0, 1] true
      = Option.none
    ∧ leadFilter [0, 4, 7] [[some 60, some 64], [some 60, some 64, some 67]]
      = [[some 60, some 64, some 67]] := by
  constructor
  · rfl
  · rfl

/-- Claim C3: `_is_complete` filters with the truthiness test `if pitch`,
which discards the pitch 0 together with the rests, so for the pitch list
`[0]` and harmony `{0}` it answers `false` although the non-rest pitch 0
has pitch class 0 and the claim (and `isCompleteSpec`, the spec's wording)
demands `true`. -/
theorem is_complete_drops_pitch_zero :
    _is_complete [some 0] [0] = false ∧ isCompleteSpec [some 0] [0] = true := by
  constructor
  · rfl
  · rfl

/-- Claim C4: for a non-rest pitch `p` whose pitch class has a mapping
entry `t` (a pitch class, `0 ≤ t < 12`), the pitch produced by `rescale`'s
per-pitch step is exactly the corrected destination pitch class plus the
original octave times 12, its pitch class is within circular distance 6 of
`p`'s pitch class, and the produced pitch itself is within 6 semitones of
`p`. -/
theorem rescale_nearest_octave :
    ∀ (mapping : List (Int × Int)) (p t : Int),
      mapping.lookup (p % 12) = some t → 0 ≤ t → t < 12 →
      rescalePitch mapping (some p) = some (pcCorrect t (p % 12) + p / 12 * 12)
      ∧ circDist ((pcCorrect t (p % 12) + p / 12 * 12) % 12) (p % 12) ≤ 6
      ∧ (pcCorrect t (p % 12) + p / 12 * 12) - p ≤ 6
      ∧ p - (pcCorrect t (p % 12) + p / 12 * 12) ≤ 6 := by
  intro mapping p t hl ht0 ht1
  have hp : p % 12 + 12 * (p / 12) = p := Int.emod_add_ediv p 12
  have h0 : 0 ≤ p % 12 := Int.emod_nonneg p (by norm_num)
  have h1 : p % 12 < 12 := Int.emod_lt_of_pos p (by norm_num)
  refine ⟨by simp [rescalePitch, hl], circDist_le_six _ _, ?_, ?_⟩
  all_goals
    unfold pcCorrect
    split_ifs <;> omega

/-- Witness for C4: the source's own example — mapping `{11: 0}` and pitch
59 produce 60 (the nearest realization), not 48. -/
theorem rescale_nearest_octave_witness :
    (List.lookup ((59 : Int) % 12) [((11 : Int), (0 : Int))] = some 0
      ∧ (0 : Int) ≤ 0 ∧ (0 : Int) < 12)
    ∧ (rescalePitch [((11 : Int), (0 : Int))] (some 59)
        = some (pcCorrect 0 ((59 : Int) % 12) + (59 : Int) / 12 * 12)
      ∧ circDist ((pcCorrect 0 ((59 : Int) % 12) + (59 : Int) / 12 * 12) % 12)
          ((59 : Int) % 12) ≤ 6
      ∧ (pcCorrect 0 ((59 : Int) % 12) + (59 : Int) / 12 * 12) - 59 ≤ 6
      ∧ (59 : Int) - (pcCorrect 0 ((59 : Int) % 12) + (59 : Int) / 12 * 12) ≤ 6) :=
  ⟨⟨by decide, by decide, by decide⟩,
    rescale_nearest_octave [((11 : Int), (0 : Int))] 59 0 (by decide) (by decide)
      (by decide)⟩

/-- Claim C5: replacing a motif's pitches with its own extracted pitch
sequence reproduces the motif exactly (deep structural equality), for any
mix of single and cluster slots. -/
theorem replace_extract_roundtrip :
    ∀ M : List Slot, _replace M (_extract M) = some M := by
  intro M
  induction M with
  | nil => rfl
  | cons s rest ih =>
    cases s with
    | single a => simp [_extract, _replace, ih]
    | cluster c => simp [_extract, _replace, List.take_left, List.drop_left, ih]

/-- Claim C6: the claim says `_move` works on a private copy and leaves the
caller's reified scale unchanged.  The source instead executes
`scale.append(pitch); scale.sort()` on the caller's list: moving the
out-of-scale pitch 61 along the reified C-major triad succeeds (result 64,
second conjunct) but leaves the caller's list permanently holding 61
(first and third conjuncts). -/
theorem move_mutates_callers_scale :
    (_move (some 61) (_reify [0, 4, 7]) 1).map (fun r => r.2)
        ≠ some (_reify [0, 4, 7])
    ∧ (_move (some 61) (_reify [0, 4, 7]) 1).map (fun r => r.1)
        = some (some 64)
    ∧ (_move (some 61) (_reify [0, 4, 7]) 1).map (fun r => decide ((61 : Int) ∈ r.2))
        = some true := by
  refine ⟨by decide, rfl, by decide⟩

/-- Counterexample to claim C7: for pitch 0 in the reified scale of `{0}`
(position 0) and step `-1`, position plus step is `-1`, outside the reified
sequence's bounds on the claim's reading — yet the source does not fail: the
Python negative index silently returns 120, the last element of the scale. -/
theorem move_negative_index_wraps :
    _move (some 0) (_reify [0]) (-1) = some (some 120, _reify [0]) := by
  rfl

/-- Claim C7 (amended): for a pitch found in the reified scale, `_move`
fails with an index-out-of-range error only when `position + step` is at
least the scale's length or is below minus its length; a negative
`position + step` within minus the length silently yields the element
counted from the end of the scale (Python negative indexing), as the
counterexample shows. -/
theorem move_out_of_bounds_raises :
    ∀ (p : Int) (scale : List Int) (step : Int),
      p ∈ scale →
      ((scale.length : Int) ≤ (scale.indexOf p : Int) + step
        ∨ (scale.indexOf p : Int) + step < -(scale.length : Int)) →
      _move (some p) scale step = Option.none := by
  intro p scale step hmem hout
  have hpy := pyIndex_out_of_range scale ((scale.indexOf p : Int) + step) hout
  simp [_move, if_pos hmem, hpy]

/-- Witness for the amended C7: pitch 0 in the one-note scale `[0]` with
step 1 walks past the end and errors. -/
theorem move_out_of_bounds_raises_witness :
    ((0 : Int) ∈ [(0 : Int)]
      ∧ (([(0 : Int)].length : Int) ≤ (([(0 : Int)].indexOf 0 : Nat) : Int) + 1
        ∨ (([(0 : Int)].indexOf 0 : Nat) : Int) + 1 < -([(0 : Int)].length : Int)))
    ∧ _move (some 0) [(0 : Int)] 1 = Option.none :=
  ⟨⟨by decide, Or.inl (by decide)⟩,
    move_out_of_bounds_raises 0 [0] 1 (by decide) (Or.inl (by decide))⟩

/-- Claim C8: `rescale`, `transpose`, and every motif in a result of
`lead` preserve the slot-type and cluster-length sequence (`shape`) of the
input motif exactly. -/
theorem transformations_preserve_shape :
    ∀ (M : List Slot) (mapping : List (Int × Int)) (scale : List Int)
      (st : Int) (harmony steps : List Int) (c : Bool),
      (∀ M', rescale M mapping = some M' → shape M' = shape M)
      ∧ (∀ M', transpose M scale st = some M' → shape M' = shape M)
      ∧ (∀ res M', lead M harmony steps c = some res → M' ∈ res →
          shape M' = shape M) := by
  intro M mapping scale st harmony steps c
  refine ⟨?_, ?_, ?_⟩
  · intro M' h
    exact replace_shape_of_eq M M' _ h (by simp)
  · intro M' h
    unfold transpose at h
    cases hma : moveAll (_reify scale) st (_extract M) with
    | none => rw [hma] at h; simp at h
    | some pr =>
      obtain ⟨ps, sc'⟩ := pr
      rw [hma] at h
      exact replace_shape_of_eq M M' ps h
        (le_of_eq (moveAll_length (_extract M) _ _ _ _ hma).symm)
  · intro res M' h hmem
    unfold lead at h
    cases hmv : move2All harmony steps (_extract M) with
    | none => rw [hmv] at h; simp at h
    | some pr =>
      obtain ⟨nearest, harmony'⟩ := pr
      rw [hmv] at h
      simp only at h
      obtain ⟨g, hg, hrep⟩ := replaceAll_mem M _ res M' h hmem
      have hg0 : g ∈ listProd nearest := by
        cases c with
        | false => simpa using hg
        | true =>
          simp only [if_true, leadFilter] at hg
          exact (List.mem_filter.mp hg).1
      have hlen : g.length = (_extract M).length := by
        rw [listProd_mem_length nearest g hg0,
          move2All_length (_extract M) _ _ _ _ hmv]
      exact replace_shape_of_eq M M' g hrep (le_of_eq hlen.symm)

/-- Witness for C8: one concrete motif with a single slot and a cluster
slot, pushed through `rescale`, `transpose` and `lead`. -/
theorem transformations_preserve_shape_witness :
    (shape [Slot.single (some 62), Slot.cluster [some 64, some 67]]
        = shape [Slot.single (some 60), Slot.cluster [some 64, some 67]])
    ∧ (shape [Slot.single (some 64), Slot.cluster [some 67, some 72]]
        = shape [Slot.single (some 60), Slot.cluster [some 64, some 67]])
    ∧ (shape [Slot.single (some 7), Slot.cluster [some 60, some 64]]
        = shape [Slot.single (some 60), Slot.cluster [some 64, some 67]]) :=
  ⟨(transformations_preserve_shape
      [Slot.single (some 60), Slot.cluster [some 64, some 67]]
      [((0 : Int), (2 : Int))] [0, 4, 7] 1 [0, 4, 7] [-1] false).1 _ (by rfl),
   (transformations_preserve_shape
      [Slot.single (some 60), Slot.cluster [some 64, some 67]]
      [((0 : Int), (2 : Int))] [0, 4, 7] 1 [0, 4, 7] [-1] false).2.1 _ (by rfl),
   (transformations_preserve_shape
      [Slot.single (some 60), Slot.cluster [some 64, some 67]]
      [((0 : Int), (2 : Int))] [0, 4, 7] 1 [0, 4, 7] [-1] false).2.2
      [[Slot.single (some 7), Slot.cluster [some 60, some 64]]] _
      (by rfl) (by simp)⟩

/-- Claim C9: for a pitch absent from the scale, `_move2` first drops the
step 0 (its behaviour on the original step list equals its behaviour on
the list with the zeros filtered out); when no steps remain it returns the
empty candidate list (not one rest) with the scale untouched; consequently
`lead` on the one-voice motif `[200]` — a pitch far outside the harmony
`{0,4,7}` — with `steps = [0]` returns the empty list (`some []`, no
error), whatever the completeness flag. -/
theorem move2_excludes_zero_step :
    ∀ (p : Int) (scale steps : List Int) (c : Bool),
      (p ∉ scale →
        _move2 (some p) scale steps
          = _move2 (some p) scale (steps.filter (fun s => s != 0)))
      ∧ (p ∉ scale → steps.filter (fun s => s != 0) = [] →
          _move2 (some p) scale steps = some ([], scale))
      ∧ lead [Slot.single (some 200)] [0, 4, 7] [0] c = some [] := by
  intro p scale steps c
  have key : p ∉ scale →
      _move2 (some p) scale steps
        = _move2 (some p) scale (steps.filter (fun s => s != 0)) := by
    intro hns
    by_cases h0 : (0 : Int) ∈ steps
    · simp [_move2, hns, h0, zero_not_mem_filter_ne_zero steps]
    · rw [filter_ne_zero_of_not_mem steps h0]
  refine ⟨key, ?_, ?_⟩
  · intro hns hf
    rw [key hns, hf]
    simp [_move2]
  · cases c with
    | false => rfl
    | true => rfl

/-- Witness for C9: pitch 60 absent from the scale `[0]` with the step
list `[0]`, and the concrete `lead` call of the claim. -/
theorem move2_excludes_zero_step_witness :
    (_move2 (some 60) [(0 : Int)] [0]
        = _move2 (some 60) [(0 : Int)] (List.filter (fun s => s != 0) [0]))
    ∧ _move2 (some 60) [(0 : Int)] [0] = some ([], [(0 : Int)])
    ∧ lead [Slot.single (some 200)] [0, 4, 7] [0] true = some [] :=
  ⟨(move2_excludes_zero_step 60 [0] [0] true).1 (by decide),
   (move2_excludes_zero_step 60 [0] [0] true).2.1 (by decide) (by decide),
   (move2_excludes_zero_step 60 [0] [0] true).2.2⟩

/-- Claim C10: a candidate list `_move2` returns for a non-rest pitch
never contains a rest, over every scale list and step list; a rest
appears only for a rest input, and then the candidate list is exactly
`[rest]`. -/
theorem move2_no_rest_candidates :
    ∀ (p : Int) (scale steps : List Int),
      (∀ (res : List (Option Int)) (sc : List Int),
        _move2 (some p) scale steps = some (res, sc) → Option.none ∉ res)
      ∧ _move2 Option.none scale steps = some ([Option.none], scale) := by
  intro p scale steps
  constructor
  · intro res sc h
    simp only [_move2] at h
    by_cases hc : p ∉ scale ∧ (0 : Int) ∈ steps
    · rw [if_pos hc] at h
      by_cases hf : steps.filter (fun s => s != 0) = []
      · rw [if_pos hf] at h
        cases h
        simp
      · rw [if_neg hf] at h
        exact moveList_no_rest _ p scale res sc
          (Or.inl (zero_not_mem_filter_ne_zero steps)) h
    · rw [if_neg hc] at h
      by_cases hf : steps = []
      · rw [if_pos hf] at h
        cases h
        simp
      · rw [if_neg hf] at h
        refine moveList_no_rest steps p scale res sc ?_ h
        by_cases hmem : p ∈ scale
        · exact Or.inr hmem
        · push_neg at hc
          exact Or.inl (hc hmem)
  · rfl

/-- Witness for C10: pitch 60 in the scale `[60]` with steps `[0]` yields
the rest-free candidate list `[60]`; the rest input yields exactly one
rest. -/
theorem move2_no_rest_candidates_witness :
    (Option.none ∉ [some (60 : Int)])
    ∧ _move2 Option.none [(60 : Int)] [0] = some ([Option.none], [(60 : Int)]) :=
  ⟨(move2_no_rest_candidates 60 [60] [0]).1 [some 60] [60] (by decide),
   (move2_no_rest_candidates 60 [60] [0]).2⟩
